import Mathlib

/-!
Verification development for the claude-runner repository.

This file shallowly embeds the parts of the repository that the verified
properties are about:

* the cron-to-StartCalendarInterval compiler of `setup.sh`
  (`cron_to_calendar_interval`, with its inner `expand_field` and
  `generate_dicts`);
* the run-state store operations of `server/lib/state.ts`
  (`updateRun`, `deleteRun`, `deleteRuns`, `clearRuns`) and of the
  inline state-writing snippets of `runner.sh` (append with the
  100-record cap, final in-place update);
* the retry loop of `runner.sh`;
* `killJob` and `spawnJob` of `server/lib/runner.ts`;
* `toggleJob` of `server/lib/jobs.ts`;
* the bearer-token auth middleware of `server/index.ts`;
* the run-id formats of `server/lib/runner.ts` (`spawnJob`) and
  `runner.sh` (`RUN_ID`).

Strings that the shell and TypeScript code manipulate are modelled as
`List Char`; all definitions are executable and proofs close without
extra axioms.
-/

namespace ClaudeRunner

/-! ## Decimal numerals

`natToChars n` is the usual decimal rendering of a natural number, as
produced by bash arithmetic expansion (`$i`), by JavaScript number
stringification, and by `Date` field padding.  It is fuel-based so that
it reduces in the kernel. -/

def digitCh : Nat → Char
  | 0 => '0' | 1 => '1' | 2 => '2' | 3 => '3' | 4 => '4'
  | 5 => '5' | 6 => '6' | 7 => '7' | 8 => '8' | _ => '9'

def natToCharsAux : Nat → Nat → List Char
  | 0, _ => []
  | fuel + 1, n =>
    if n < 10 then [digitCh n]
    else natToCharsAux fuel (n / 10) ++ [digitCh (n % 10)]

def natToChars (n : Nat) : List Char :=
  natToCharsAux (n + 1) n

/-- Left-pad a decimal numeral with zeros to width `w` (as
`String.prototype.padStart` does inside `Date.prototype.toISOString`). -/
def padTo (w n : Nat) : List Char :=
  List.replicate (w - (natToChars n).length) '0' ++ natToChars n

def digitsToNat (ds : List Char) : Nat :=
  ds.foldl (fun a c => 10 * a + (c.toNat - 48)) 0

/-- A nonempty all-digit character list (the `[0-9]+` regex of `setup.sh`). -/
def isNumStr (cs : List Char) : Bool :=
  !cs.isEmpty && cs.all (·.isDigit)

/-! ## Splitting

`splitOnCh sep cs` splits `cs` at every occurrence of `sep`, keeping
empty chunks, mirroring how `IFS=',' read -ra` and the `setup.sh`
regexes decompose a cron field.  (Bash drops a trailing empty chunk, but
an empty chunk expands to nothing in `expand_field` either way, so the
compiled output is identical.) -/

def splitOnCh (sep : Char) : List Char → List (List Char)
  | [] => [[]]
  | c :: rest =>
    let r := splitOnCh sep rest
    if c = sep then [] :: r
    else
      match r with
      | [] => [[c]]
      | h :: t => (c :: h) :: t

/-! ## Cron compiler (`setup.sh`, `cron_to_calendar_interval`)

A cron field arrives as one whitespace-delimited token; we model it as a
`List Char`.  `expand_field` mirrors the shell function of the same
name in `setup.sh`:

* `[ "$field" = "*" ]`            → the single value `*`;
* `grep -qE` on `^\*/[0-9]+$`     → `for ((i=0; i<max; i+=step))`;
* otherwise split on `,`; a part matching `^[0-9]+-[0-9]+$` expands to
  `for ((i=start; i<=end; i++))`, every other part is appended verbatim.

The expanded values are space-joined and later word-split again, so an
empty part contributes nothing; values are character strings, exactly as
in the shell. -/

def strideStep? (f : List Char) : Option Nat :=
  match f with
  | a :: b :: ds =>
    if a = '*' && b = '/' && isNumStr ds then some (digitsToNat ds) else none
  | _ => none

def rangeBounds? (p : List Char) : Option (Nat × Nat) :=
  match splitOnCh '-' p with
  | [a, b] =>
    if isNumStr a && isNumStr b then some (digitsToNat a, digitsToNat b)
    else none
  | _ => none

/-- Values of the loop `for ((i=0; i<max; i+=step))` for `step > 0`. -/
def strideVals (step mx : Nat) : List Nat :=
  (List.range ((mx + step - 1) / step)).map (· * step)

def expandPart (p : List Char) : List (List Char) :=
  match rangeBounds? p with
  | some (a, b) => (List.range' a (b + 1 - a)).map natToChars
  | none => if p.isEmpty then [] else [p]

def expand_field (f : List Char) (mx : Nat) : List (List Char) :=
  if f = ['*'] then [['*']]
  else
    match strideStep? f with
    | some step => (strideVals step mx).map natToChars
    | none => (splitOnCh ',' f).flatMap expandPart

/-- One `<dict>` entry of the generated `StartCalendarInterval`: a key is
present exactly when the corresponding expanded value is not `*`
(`[ "$m" != "*" ] && echo "<key>Minute</key><integer>$m</integer>"`). -/
structure TriggerDict where
  minute : Option (List Char)
  hour : Option (List Char)
  day : Option (List Char)
  month : Option (List Char)
  weekday : Option (List Char)
deriving DecidableEq, Repr

def keyVal (v : List Char) : Option (List Char) :=
  if v = ['*'] then none else some v

/-- The five nested `for` loops of `generate_dicts` in `setup.sh`, one
dict per combination, keys only for non-`*` values. -/
def generate_dicts (mins hours doms mons dows : List (List Char)) :
    List TriggerDict :=
  mins.flatMap fun m =>
    hours.flatMap fun h =>
      doms.flatMap fun d =>
        mons.flatMap fun mo =>
          dows.map fun dw =>
            ⟨keyVal m, keyVal h, keyVal d, keyVal mo, keyVal dw⟩

/-- `cron_to_calendar_interval` of `setup.sh`, at the level of the dict
list it renders: each of the five fields is expanded independently with
the bounds the script passes (`60 24 32 13 7`) and the Cartesian product
is emitted.  (The surrounding single-dict/array XML wrapper carries no
further information.) -/
def cron_to_calendar_interval (mi h dom mon dow : List Char) :
    List TriggerDict :=
  generate_dicts (expand_field mi 60) (expand_field h 24)
    (expand_field dom 32) (expand_field mon 13) (expand_field dow 7)

/-! ### Validity envelope

`wfField` delimits the field strings on which the shell code is
well-behaved (no division by zero stride, no octal-literal arithmetic
errors from leading zeros): exactly the "syntactically valid" inputs the
specification quantifies over.  Note that a part that matches neither
the range nor the numeral shape (for example `1-10/2`) is still
well-formed for the shell — it is passed through verbatim. -/

def numOk (ds : List Char) : Bool :=
  isNumStr ds && (ds = ['0'] || decide (ds.head? ≠ some '0'))

def wfPart (p : List Char) : Bool :=
  match splitOnCh '-' p with
  | [a, b] => if isNumStr a && isNumStr b then numOk a && numOk b else true
  | _ => true

def wfField (f : List Char) : Bool :=
  if f = ['*'] then true
  else
    match strideStep? f with
    | some step => numOk (f.drop 2) && decide (0 < step)
    | none => (splitOnCh ',' f).all wfPart

/-! ### Strict fields

`strictField lo hi allowStride f` captures the fields for which the
compiler's output values are guaranteed to be in-domain decimal
numerals: `*`, in-domain literals, in-domain `start-end` ranges, comma
lists thereof, and — only where the field's domain starts at 0 — a
positive `*/step` stride.  This is the envelope for the amended safety
claim; the code itself never validates domains. -/

def strictPart (lo hi : Nat) (p : List Char) : Bool :=
  match splitOnCh '-' p with
  | [a, b] =>
    isNumStr a && isNumStr b && numOk a && numOk b &&
      decide (lo ≤ digitsToNat a) && decide (digitsToNat b ≤ hi)
  | _ =>
    isNumStr p && numOk p &&
      decide (lo ≤ digitsToNat p) && decide (digitsToNat p ≤ hi)

def strictField (lo hi : Nat) (allowStride : Bool) (f : List Char) : Bool :=
  if f = ['*'] then true
  else
    match strideStep? f with
    | some step => allowStride && numOk (f.drop 2) && decide (0 < step)
    | none => (splitOnCh ',' f).all (strictPart lo hi)

/-- The in-domain numeral property the safety claim asserts for an
emitted value: a nonempty all-digit string denoting an integer within
`[lo, hi]`. -/
def InDomainVal (lo hi : Nat) (v : List Char) : Prop :=
  v ≠ [] ∧ v.all Char.isDigit = true ∧ lo ≤ digitsToNat v ∧ digitsToNat v ≤ hi

/-! ## Run state store (`server/lib/state.ts` and the inline snippets of
`runner.sh`)

`RunRecord` mirrors the `RunRecord` interface of `state.ts`; optional
JSON fields become `Option`s. -/

structure RunRecord where
  runId : String
  jobName : String
  startedAt : String
  completedAt : Option String := none
  exitCode : Option Int := none
  attempts : Option Nat := none
  status : Option String := none
  logFile : String := ""
deriving DecidableEq, Repr

/-- The append performed by `runner.sh` when it writes the `running`
entry (and again, on the not-found fallback, when it writes the final
entry): `runs.push(entry); if (runs.length > 100) runs = runs.slice(-100)`. -/
def appendRun (runs : List RunRecord) (entry : RunRecord) : List RunRecord :=
  let rs := runs ++ [entry]
  if rs.length > 100 then rs.drop (rs.length - 100) else rs

/-- `updateRun` of `state.ts`: merge `f` into the first record whose
`runId` matches (`runs.find(...)` + `Object.assign`); no-op when the id
is absent. -/
def updateRun : List RunRecord → String → (RunRecord → RunRecord) →
    List RunRecord
  | [], _, _ => []
  | r :: rest, rid, f =>
    if r.runId = rid then f r :: rest
    else r :: updateRun rest rid f

/-- The final `state.json` update of `runner.sh`: replace the record at
`findIndex(r => r.runId === RUN_ID)` by the freshly built final entry,
or push it when the id is gone, then cap at 100. -/
def replaceFirstById : List RunRecord → RunRecord → List RunRecord
  | [], _ => []
  | r :: rest, e =>
    if r.runId = e.runId then e :: rest else r :: replaceFirstById rest e

def final_update (runs : List RunRecord) (entry : RunRecord) :
    List RunRecord :=
  let rs :=
    if runs.any (·.runId = entry.runId) then replaceFirstById runs entry
    else runs ++ [entry]
  if rs.length > 100 then rs.drop (rs.length - 100) else rs

/-! ### Deletion operations

The filesystem of log files is a predicate `fs : String → Bool` (does
the path exist), and `delOk : String → Bool` says whether an
`unlinkSync` on the path succeeds; the `try { unlinkSync } catch {}`
around each unlink is the reason the record-level results may not
depend on `delOk`. -/

/-- `try { unlinkSync(p) } catch {}`: the path disappears only if the
unlink succeeds. -/
def tryUnlink (fs delOk : String → Bool) (p : String) : String → Bool :=
  fun q => if q = p && delOk p then false else fs q

/-- The per-record log cleanup both deletion paths perform:
`if (logFile && existsSync(logFile)) try { unlinkSync(logFile) } catch {}`. -/
def cleanupLog (fs delOk : String → Bool) (r : RunRecord) : String → Bool :=
  if r.logFile ≠ "" && fs r.logFile then tryUnlink fs delOk r.logFile else fs

/-- `deleteRun` of `state.ts`: find the first index with the given id
(`findIndex`), return `false` if absent, otherwise best-effort delete
that record's log file and splice the record out.  Note there is no
`running` check here. -/
def deleteRun : List RunRecord → (String → Bool) → (String → Bool) →
    String → Bool × List RunRecord × (String → Bool)
  | [], fs, _, _ => (false, [], fs)
  | r :: rest, fs, delOk, rid =>
    if r.runId = rid then (true, rest, cleanupLog fs delOk r)
    else
      let t := deleteRun rest fs delOk rid
      (t.1, r :: t.2.1, t.2.2)

/-- `deleteRuns` of `state.ts`: keep a record when its id is not
requested or its status is `running`; otherwise best-effort delete its
log and drop it, counting it. -/
def deleteRuns : List RunRecord → (String → Bool) → (String → Bool) →
    List String → Nat × List RunRecord × (String → Bool)
  | [], fs, _, _ => (0, [], fs)
  | r :: rest, fs, delOk, ids =>
    if !ids.contains r.runId || r.status = some "running" then
      let t := deleteRuns rest fs delOk ids
      (t.1, r :: t.2.1, t.2.2)
    else
      let t := deleteRuns rest (cleanupLog fs delOk r) delOk ids
      (t.1 + 1, t.2.1, t.2.2)

/-- The derived display status of `state.ts`:
`run.status || (run.exitCode === 0 ? "success" : "failed")` (an empty
stored status string is falsy in JavaScript and also falls through). -/
def derivedStatus (r : RunRecord) : String :=
  match r.status with
  | some s => if s = "" then (if r.exitCode = some 0 then "success" else "failed") else s
  | none => if r.exitCode = some 0 then "success" else "failed"

/-- The status filter guard of `clearRuns`:
`filter?.status && runStatus !== filter.status` (an empty filter string
is falsy, i.e. no filtering). -/
def clearFilterKeeps (filt : Option String) (r : RunRecord) : Bool :=
  match filt with
  | some s => s ≠ "" && derivedStatus r ≠ s
  | none => false

/-- `clearRuns` of `state.ts`: keep records excluded by the status
filter, keep `running` records, best-effort delete the log of and drop
(and count) everything else. -/
def clearRuns : List RunRecord → (String → Bool) → (String → Bool) →
    Option String → Nat × List RunRecord × (String → Bool)
  | [], fs, _, _ => (0, [], fs)
  | r :: rest, fs, delOk, filt =>
    if clearFilterKeeps filt r then
      let t := clearRuns rest fs delOk filt
      (t.1, r :: t.2.1, t.2.2)
    else if r.status = some "running" then
      let t := clearRuns rest fs delOk filt
      (t.1, r :: t.2.1, t.2.2)
    else
      let t := clearRuns rest (cleanupLog fs delOk r) delOk filt
      (t.1 + 1, t.2.1, t.2.2)

/-- Outcome of the `DELETE /api/runs/:runId` handler in
`server/routes/runs.ts`. -/
inductive DeleteRouteResult
  | notFound
  | runningConflict
  | deleted
  | failed
deriving DecidableEq, Repr

/-- The `DELETE /api/runs/:runId` handler: look the run up, reject a
missing id with 404, reject `status === "running"` with 400, otherwise
call `deleteRun`. -/
def deleteRunRoute (runs : List RunRecord) (fs delOk : String → Bool)
    (rid : String) : DeleteRouteResult × List RunRecord × (String → Bool) :=
  match runs.find? (·.runId = rid) with
  | none => (.notFound, runs, fs)
  | some run =>
    if run.status = some "running" then (.runningConflict, runs, fs)
    else
      let t := deleteRun runs fs delOk rid
      (if t.1 then .deleted else .failed, t.2.1, t.2.2)

/-! ## Retry loop (`runner.sh`)

The loop is

```
ATTEMPT=0
while [ "$ATTEMPT" -le "$MAX_RETRIES" ]; do
  ATTEMPT=$((ATTEMPT + 1))
  ... run claude, appending to "$LOG_FILE" ...; EXIT_CODE=$?
  if [ "$EXIT_CODE" -eq 0 ]; then break
  else [ "$ATTEMPT" -le "$MAX_RETRIES" ] && sleep 5; fi
done
```

`exits j` is the exit code of the `j`-th execution (1-based).  The
result records how many executions ran, the last exit code, the total
seconds spent in `sleep 5` backoffs, and the 1-based indices of the
attempts whose output was appended (in order) to the single log file. -/

structure RetryResult where
  attempts : Nat
  exitCode : Int
  backoffSecs : Nat
  logChunks : List Nat
deriving DecidableEq, Repr

def retryGo (exits : Nat → Int) (k : Nat) : Nat → RetryResult
  | 0 => ⟨k, 1, 0, []⟩
  | fuel + 1 =>
    let k' := k + 1
    let e := exits k'
    if e = 0 then ⟨k', e, 0, [k']⟩
    else if fuel = 0 then ⟨k', e, 0, [k']⟩
    else
      let r := retryGo exits k' fuel
      ⟨r.attempts, r.exitCode, r.backoffSecs + 5, k' :: r.logChunks⟩

/-- The retry loop with `MAX_RETRIES = retries`: at most `retries + 1`
iterations, starting from `ATTEMPT = 0`. -/
def runner_retry_loop (exits : Nat → Int) (retries : Nat) : RetryResult :=
  retryGo exits 0 (retries + 1)

/-! ## killJob (`server/lib/runner.ts`)

`killJob` first signals the recorded process group and removes the lock
artifacts when a pid file exists, then — independently of the lock —
scans `state.json` for `running` records of the job and force-marks
them `killed`/`137` via `updateRun`.  `sig` is the outcome of
`process.kill(-pid, "SIGTERM")`: success, `ESRCH` (tolerated), or some
other error (early return). -/

inductive KillSignalResult
  | ok
  | esrch
  | failed (msg : String)
deriving DecidableEq, Repr

/-- The `updates` object passed to `updateRun` by `killJob`. -/
def markKilled (now : String) (r : RunRecord) : RunRecord :=
  { r with status := some "killed", completedAt := some now,
           exitCode := some 137 }

structure KillOutcome where
  killed : Bool
  error : Option String
  runs : List RunRecord
  lockRemoved : Bool
deriving Repr

def runningFor (jb : String) (r : RunRecord) : Bool :=
  r.jobName = jb && r.status = some "running"

def killJob (jb : String) (pidFileExists : Bool) (sig : KillSignalResult)
    (now : String) (runs : List RunRecord) : KillOutcome :=
  match pidFileExists, sig with
  | true, .failed msg => ⟨false, some msg, runs, false⟩
  | pid, _ =>
    let stale := runs.filter (runningFor jb)
    if stale.isEmpty then
      ⟨false, some "No running process found", runs, pid⟩
    else
      ⟨true, none,
        stale.foldl (fun acc r => updateRun acc r.runId (markKilled now)) runs,
        pid⟩

/-! ## toggleJob (`server/lib/jobs.ts`)

After name validation and file resolution, `toggleJob` loads the YAML
document, flips the pause flag and writes it back:

```
const wasEnabled = parsed.enabled !== false;
if (wasEnabled) parsed.enabled = false; else delete parsed.enabled;
```

The parsed document is modelled as its `enabled` entry plus the
remaining key/value pairs, which the function never touches. -/

structure JobYaml where
  enabled : Option Bool
  rest : List (String × String)
deriving DecidableEq, Repr

def toggleJob (doc : JobYaml) : JobYaml × Bool :=
  if doc.enabled ≠ some false then ({ doc with enabled := some false }, false)
  else ({ doc with enabled := none }, true)

/-! ## Auth middleware (`server/index.ts`)

`app.use("/api/*", ...)` registers the bearer-token middleware for every
`/api/...` path — the later-registered `GET /api/health` route included,
since Hono runs every earlier-registered middleware whose pattern
matches the request path.  `AUTH_TOKEN` is `config.auth_token || ""`. -/

def authBypass (token : String) : Bool :=
  token = "" || token = "changeme"

def credentialOk (token : String) (authHeader queryToken : Option String) :
    Bool :=
  authHeader = some ("Bearer " ++ token) || queryToken = some token

def isApiPath (p : String) : Bool :=
  "/api/".data.isPrefixOf p.data

inductive ApiResponse
  | unauthorized
  | handled
deriving DecidableEq, Repr

/-- Dispatch of one request through `server/index.ts`: the middleware
rejects a matching request with 401 unless enforcement is disabled or a
credential matches; everything else reaches its handler. -/
def serveApi (token path : String) (authHeader queryToken : Option String) :
    ApiResponse :=
  if isApiPath path && !authBypass token &&
      !credentialOk token authHeader queryToken then
    .unauthorized
  else .handled

/-! ## Job start paths (`runner.sh` argument handling + enabled check,
`server/lib/runner.ts` `spawnJob`, `server/routes/runs.ts` trigger)

`runner.sh` resolves the job file, and for a named (non-`--prompt`)
invocation reads `enabled` and exits 0 when it is `false` *before*
taking the lock or executing anything; an inline `--prompt` invocation
never reads a job file.  Both launchd (scheduled) and the API trigger
(`spawnJob(jobName, false)`) enter through exactly this code path. -/

structure JobDef where
  prompt : String := ""
  schedule : Option String := none
  enabled : Option Bool := none
deriving DecidableEq, Repr

inductive RunnerArg
  | named (name : String)
  | inline (prompt : String)
deriving DecidableEq, Repr

inductive RunnerOutcome
  | jobNotFound
  | pausedExit
  | lockBusy
  | executed (jobName : String)
deriving DecidableEq, Repr

def runner_invoke (jobs : String → Option JobDef)
    (lockHeld : String → Bool) : RunnerArg → RunnerOutcome
  | .inline _ =>
    if lockHeld "adhoc" then .lockBusy else .executed "adhoc"
  | .named n =>
    match jobs n with
    | none => .jobNotFound
    | some d =>
      if d.enabled = some false then .pausedExit
      else if lockHeld n then .lockBusy
      else .executed n

/-- Whether `setup.sh` installs a calendar trigger for a definition:
`[ -z "$SCHEDULE" ] && continue; [ "$ENABLED" = "false" ] && continue`
with `schedule = c.schedule || ''` and
`enabled = c.enabled === false ? 'false' : 'true'`. -/
def scheduleInstalled (d : JobDef) : Bool :=
  (match d.schedule with
   | some s => s ≠ ""
   | none => false) &&
  d.enabled ≠ some false

/-! ## Run-id formats (`spawnJob` vs `runner.sh`)

`spawnJob` returns
`jobName + "-" + new Date().toISOString().replace(/[-:T]/g, "").slice(0, 15)`;
`runner.sh` sets `RUN_ID="${JOB_NAME}-$(date +%Y%m%d-%H%M%S)"`.  A
timestamp is a calendar instant with millisecond part. -/

structure Timestamp where
  year : Nat
  month : Nat
  day : Nat
  hour : Nat
  minute : Nat
  second : Nat
  ms : Nat
deriving DecidableEq, Repr

/-- `Date.prototype.toISOString`: `YYYY-MM-DDTHH:mm:ss.sssZ`. -/
def isoChars (t : Timestamp) : List Char :=
  padTo 4 t.year ++ ['-'] ++ padTo 2 t.month ++ ['-'] ++ padTo 2 t.day ++
    ['T'] ++ padTo 2 t.hour ++ [':'] ++ padTo 2 t.minute ++ [':'] ++
    padTo 2 t.second ++ ['.'] ++ padTo 3 t.ms ++ ['Z']

/-- `.replace(/[-:T]/g, "").slice(0, 15)` applied to the ISO string. -/
def serverStamp (t : Timestamp) : List Char :=
  ((isoChars t).filter fun c => !(c = '-' || c = ':' || c = 'T')).take 15

def spawnJob_runId (name : String) (t : Timestamp) : List Char :=
  name.data ++ ['-'] ++ serverStamp t

/-- `date +%Y%m%d-%H%M%S`. -/
def runnerStamp (t : Timestamp) : List Char :=
  padTo 4 t.year ++ padTo 2 t.month ++ padTo 2 t.day ++ ['-'] ++
    padTo 2 t.hour ++ padTo 2 t.minute ++ padTo 2 t.second

def runner_RUN_ID (name : String) (t : Timestamp) : List Char :=
  name.data ++ ['-'] ++ runnerStamp t

/-! ## Helper lemmas on decimal numerals -/

theorem digitCh_isDigit (d : Nat) : (digitCh d).isDigit = true := by
  unfold digitCh
  split <;> decide

theorem digitCh_toNat (d : Nat) (h : d < 10) : (digitCh d).toNat - 48 = d := by
  interval_cases d <;> decide

theorem natToCharsAux_all_digit (fuel n : Nat) :
    (natToCharsAux fuel n).all Char.isDigit = true := by
  induction fuel generalizing n with
  | zero => rfl
  | succ fuel ih =>
    unfold natToCharsAux
    split
    · simp [digitCh_isDigit]
    · simp [List.all_append, ih, digitCh_isDigit]

theorem natToChars_all_digit (n : Nat) :
    (natToChars n).all Char.isDigit = true :=
  natToCharsAux_all_digit _ _

theorem natToCharsAux_ne_nil (fuel n : Nat) (h : 0 < fuel) :
    natToCharsAux fuel n ≠ [] := by
  cases fuel with
  | zero => omega
  | succ fuel =>
    unfold natToCharsAux
    split
    · simp
    · simp

theorem natToChars_ne_nil (n : Nat) : natToChars n ≠ [] :=
  natToCharsAux_ne_nil _ _ (Nat.succ_pos n)

theorem digitsToNat_append_singleton (xs : List Char) (c : Char) :
    digitsToNat (xs ++ [c]) = 10 * digitsToNat xs + (c.toNat - 48) := by
  simp [digitsToNat, List.foldl_append]

theorem digitsToNat_natToCharsAux (fuel n : Nat) (h : n < fuel) :
    digitsToNat (natToCharsAux fuel n) = n := by
  induction fuel generalizing n with
  | zero => omega
  | succ fuel ih =>
    unfold natToCharsAux
    split
    · rename_i hlt
      simp [digitsToNat, digitCh_toNat n hlt]
    · rename_i hge
      rw [digitsToNat_append_singleton,
        ih (n / 10) (by
          have h10 : n / 10 < n := Nat.div_lt_self (by omega) (by omega)
          omega),
        digitCh_toNat (n % 10) (Nat.mod_lt n (by omega))]
      omega

theorem digitsToNat_natToChars (n : Nat) : digitsToNat (natToChars n) = n :=
  digitsToNat_natToCharsAux _ _ (Nat.lt_succ_self n)

theorem natToCharsAux_length_le (fuel n k : Nat) (hf : n < fuel) (hk : 1 ≤ k)
    (h : n < 10 ^ k) : (natToCharsAux fuel n).length ≤ k := by
  induction fuel generalizing n k with
  | zero => omega
  | succ fuel ih =>
    unfold natToCharsAux
    split
    · simpa using hk
    · rename_i hge
      push_neg at hge
      have hk2 : 2 ≤ k := by
        rcases Nat.lt_or_ge k 2 with hlt | hge2
        · have hk1 : k = 1 := by omega
          subst hk1
          rw [pow_one] at h
          omega
        · exact hge2
      have hdivfuel : n / 10 < fuel := by
        have h10 : n / 10 < n := Nat.div_lt_self (by omega) (by omega)
        omega
      have hdivpow : n / 10 < 10 ^ (k - 1) := by
        rw [Nat.div_lt_iff_lt_mul (by omega)]
        have : 10 ^ (k - 1) * 10 = 10 ^ k := by
          rw [← pow_succ]
          congr 1
          omega
        omega
      have := ih (n / 10) (k - 1) hdivfuel (by omega) hdivpow
      simp only [List.length_append, List.length_cons, List.length_nil]
      omega

theorem natToChars_length_le (n k : Nat) (hk : 1 ≤ k) (h : n < 10 ^ k) :
    (natToChars n).length ≤ k :=
  natToCharsAux_length_le _ _ _ (Nat.lt_succ_self n) hk h

theorem padTo_length (w n : Nat) (h : (natToChars n).length ≤ w) :
    (padTo w n).length = w := by
  simp [padTo]
  omega

theorem padTo_all_digit (w n : Nat) : (padTo w n).all Char.isDigit = true := by
  rw [padTo, List.all_append, natToChars_all_digit, Bool.and_true,
    List.all_eq_true]
  intro c hc
  rw [List.eq_of_mem_replicate hc]
  decide

theorem padTo_ne_nil (w n : Nat) : padTo w n ≠ [] := by
  simp [padTo, natToChars_ne_nil]

/-! ## C6 — append cap -/

/-- C6: after every append to the run state store the collection holds at
most 100 records; the result is exactly the suffix of `runs ++ [entry]`
obtained by dropping the oldest overflow records, so eviction is
strictly oldest-first in insertion order and the newest records are
kept. -/
theorem append_cap_oldest_first (runs : List RunRecord) (entry : RunRecord) :
    (appendRun runs entry).length ≤ 100 ∧
    appendRun runs entry
      = (runs ++ [entry]).drop ((runs ++ [entry]).length - 100) ∧
    appendRun runs entry <:+ runs ++ [entry] := by
  simp only [appendRun]
  by_cases hgt : (runs ++ [entry]).length > 100
  · rw [if_pos hgt]
    refine ⟨?_, rfl, List.drop_suffix _ _⟩
    rw [List.length_drop]
    omega
  · rw [if_neg hgt]
    have h0 : (runs ++ [entry]).length - 100 = 0 := by omega
    rw [h0, List.drop_zero]
    exact ⟨by omega, rfl, List.suffix_rfl⟩

/-! ## C9 — toggle twice is the identity when `enabled` is absent -/

/-- C9: for a stored definition without an `enabled` key, the first
toggle pauses the job by writing `enabled: false`, and the second toggle
deletes the `enabled` key again, so the parsed definition returns to the
original document. -/
theorem toggle_twice_roundtrip (doc : JobYaml) (h : doc.enabled = none) :
    (toggleJob doc).1.enabled = some false ∧
    (toggleJob doc).2 = false ∧
    (toggleJob (toggleJob doc).1).2 = true ∧
    (toggleJob (toggleJob doc).1).1 = doc := by
  cases doc with
  | mk e rest =>
    simp only at h
    subst h
    simp [toggleJob]

theorem toggle_twice_roundtrip_witness :
    (⟨none, [("prompt", "hello")]⟩ : JobYaml).enabled = none ∧
    (toggleJob (toggleJob (⟨none, [("prompt", "hello")]⟩ : JobYaml)).1).1
      = (⟨none, [("prompt", "hello")]⟩ : JobYaml) :=
  ⟨rfl, (toggle_twice_roundtrip ⟨none, [("prompt", "hello")]⟩ rfl).2.2.2⟩

/-! ## C1 — instant count is the product of the field expansions -/

theorem length_flatMap_const {α β : Type} (l : List α) (f : α → List β)
    (k : Nat) (h : ∀ x ∈ l, (f x).length = k) :
    (l.flatMap f).length = l.length * k := by
  induction l with
  | nil => simp
  | cons a as ih =>
    simp only [List.flatMap_cons, List.length_append, List.length_cons]
    rw [h a (by simp), ih (fun x hx => h x (by simp [hx]))]
    ring

theorem length_generate_dicts (A B C D E : List (List Char)) :
    (generate_dicts A B C D E).length
      = A.length * (B.length * (C.length * (D.length * E.length))) := by
  unfold generate_dicts
  apply length_flatMap_const
  intro m _
  apply length_flatMap_const
  intro h _
  apply length_flatMap_const
  intro d _
  apply length_flatMap_const
  intro mo _
  simp

/-- C1: the number of trigger dicts the compiler emits equals the product
of the five fields' expansion cardinalities; a `*` field expands to the
single don't-emit placeholder (factor 1, no key); the documented example
`*/10 9-17 * * 1-5` produces exactly 270 dicts; and `* * * * *` produces
exactly one dict with no constrained keys. -/
theorem cron_instant_count :
    (∀ f1 f2 f3 f4 f5 : List Char,
      wfField f1 = true → wfField f2 = true → wfField f3 = true →
      wfField f4 = true → wfField f5 = true →
      (cron_to_calendar_interval f1 f2 f3 f4 f5).length
        = (expand_field f1 60).length * ((expand_field f2 24).length *
            ((expand_field f3 32).length * ((expand_field f4 13).length *
              (expand_field f5 7).length)))) ∧
    (∀ mx, expand_field ['*'] mx = [['*']]) ∧
    (∀ h d mo dw, (TriggerDict.mk (keyVal ['*']) h d mo dw).minute = none) ∧
    (cron_to_calendar_interval "*/10".data "9-17".data "*".data "*".data
        "1-5".data).length = 270 ∧
    cron_to_calendar_interval "*".data "*".data "*".data "*".data "*".data
      = [⟨none, none, none, none, none⟩] := by
  refine ⟨?_, ?_, ?_, ?_, ?_⟩
  · intro f1 f2 f3 f4 f5 _ _ _ _ _
    exact length_generate_dicts _ _ _ _ _
  · intro mx
    simp [expand_field]
  · intro h d mo dw
    rfl
  · unfold cron_to_calendar_interval
    rw [length_generate_dicts]
    decide
  · decide

theorem cron_instant_count_witness :
    wfField "0".data = true ∧
    (cron_to_calendar_interval "0".data "7".data "*".data "*".data
        "*".data).length
      = (expand_field "0".data 60).length * ((expand_field "7".data 24).length *
          ((expand_field "*".data 32).length *
            ((expand_field "*".data 13).length *
              (expand_field "*".data 7).length))) :=
  ⟨by decide, cron_instant_count.1 "0".data "7".data "*".data "*".data "*".data
    (by decide) (by decide) (by decide) (by decide) (by decide)⟩

/-! ## C3 — values emitted by the compiler -/

theorem splitOnCh_ne_nil (sep : Char) (cs : List Char) :
    splitOnCh sep cs ≠ [] := by
  cases cs with
  | nil => simp [splitOnCh]
  | cons c rest =>
    simp only [splitOnCh]
    split
    · simp
    · split <;> simp

theorem splitOnCh_of_not_mem (sep : Char) (cs : List Char) (h : sep ∉ cs) :
    splitOnCh sep cs = [cs] := by
  induction cs with
  | nil => rfl
  | cons c rest ih =>
    have hc : c ≠ sep := by
      intro hcc
      exact h (by simp [hcc])
    have hr : sep ∉ rest := by
      intro hm
      exact h (by simp [hm])
    simp only [splitOnCh, ih hr]
    rw [if_neg hc]

theorem not_dash_mem_of_numStr (p : List Char) (h : isNumStr p = true) :
    '-' ∉ p := by
  intro hm
  simp only [isNumStr, Bool.and_eq_true, List.all_eq_true] at h
  have := h.2 '-' hm
  simp at this

theorem rangeBounds?_of_numStr (p : List Char) (h : isNumStr p = true) :
    rangeBounds? p = none := by
  unfold rangeBounds?
  rw [splitOnCh_of_not_mem '-' p (not_dash_mem_of_numStr p h)]

theorem expandPart_of_numStr (p : List Char) (h : isNumStr p = true) :
    expandPart p = [p] := by
  unfold expandPart
  rw [rangeBounds?_of_numStr p h]
  have : p.isEmpty = false := by
    simp only [isNumStr, Bool.and_eq_true, Bool.not_eq_true'] at h
    exact h.1
  simp [this]

theorem mem_strideVals_lt (step mx n : Nat) (hs : 0 < step)
    (h : n ∈ strideVals step mx) : n < mx := by
  simp only [strideVals, List.mem_map, List.mem_range] at h
  obtain ⟨i, hi, rfl⟩ := h
  have hq : (mx + step - 1) / step * step ≤ mx + step - 1 :=
    Nat.div_mul_le_self _ _
  have h2 : (i + 1) * step ≤ (mx + step - 1) / step * step :=
    Nat.mul_le_mul_right step hi
  rw [Nat.succ_mul] at h2
  omega

theorem inDomainVal_natToChars (lo hi n : Nat) (h1 : lo ≤ n) (h2 : n ≤ hi) :
    InDomainVal lo hi (natToChars n) := by
  refine ⟨natToChars_ne_nil n, natToChars_all_digit n, ?_, ?_⟩ <;>
    rw [digitsToNat_natToChars] <;> assumption

theorem numStr_ne_nil (p : List Char) (h : isNumStr p = true) : p ≠ [] := by
  simp only [isNumStr, Bool.and_eq_true, Bool.not_eq_true'] at h
  intro hnil
  subst hnil
  simp at h

theorem numStr_all_digit (p : List Char) (h : isNumStr p = true) :
    p.all Char.isDigit = true := by
  simp only [isNumStr, Bool.and_eq_true] at h
  exact h.2

theorem strictPart_inDomain (lo hi : Nat) (p : List Char)
    (hp : strictPart lo hi p = true) :
    ∀ v ∈ expandPart p, InDomainVal lo hi v := by
  intro v hv
  rcases hsp : splitOnCh '-' p with _ | ⟨a, _ | ⟨b, _ | ⟨c, t⟩⟩⟩
  · exact absurd hsp (splitOnCh_ne_nil '-' p)
  · -- single chunk: `strictPart` demands an in-domain numeral `p`
    rw [strictPart, hsp] at hp
    simp only [Bool.and_eq_true, decide_eq_true_eq] at hp
    obtain ⟨⟨⟨hnum, _⟩, hlo⟩, hhi⟩ := hp
    rw [expandPart_of_numStr p hnum] at hv
    simp only [List.mem_singleton] at hv
    rw [hv]
    exact ⟨numStr_ne_nil p hnum, numStr_all_digit p hnum, hlo, hhi⟩
  · -- two chunks: an in-domain range
    rw [strictPart, hsp] at hp
    simp only [Bool.and_eq_true, decide_eq_true_eq] at hp
    obtain ⟨⟨⟨⟨⟨hna, hnb⟩, _⟩, _⟩, hlo⟩, hhi⟩ := hp
    have hrb : rangeBounds? p = some (digitsToNat a, digitsToNat b) := by
      unfold rangeBounds?
      rw [hsp]
      simp [hna, hnb]
    rw [expandPart, hrb] at hv
    simp only [List.mem_map, List.mem_range'] at hv
    obtain ⟨m, ⟨hm1, hm2⟩, rfl⟩ := hv
    exact inDomainVal_natToChars _ _ _ (by omega) (by omega)
  · -- three or more chunks cannot satisfy `strictPart`
    rw [strictPart, hsp] at hp
    simp only [Bool.and_eq_true] at hp
    have hnum : isNumStr p = true := hp.1.1.1
    have hone := splitOnCh_of_not_mem '-' p (not_dash_mem_of_numStr p hnum)
    rw [hsp] at hone
    simp at hone

theorem expand_field_strict (lo hi : Nat) (s : Bool) (f : List Char)
    (hs : s = true → lo = 0)
    (hf : strictField lo hi s f = true) :
    ∀ v ∈ expand_field f (hi + 1), v = ['*'] ∨ InDomainVal lo hi v := by
  intro v hv
  by_cases hstar : f = ['*']
  · subst hstar
    left
    simpa [expand_field] using hv
  · rw [expand_field, if_neg hstar] at hv
    rw [strictField, if_neg hstar] at hf
    cases hss : strideStep? f with
    | some step =>
      rw [hss] at hv hf
      simp only [Bool.and_eq_true, decide_eq_true_eq] at hf
      obtain ⟨⟨hstride, _⟩, hpos⟩ := hf
      have hlo : lo = 0 := hs hstride
      simp only [List.mem_map] at hv
      obtain ⟨n, hn, rfl⟩ := hv
      right
      exact inDomainVal_natToChars _ _ _ (by omega)
        (by have := mem_strideVals_lt step (hi + 1) n hpos hn; omega)
    | none =>
      rw [hss] at hv hf
      simp only [List.mem_flatMap] at hv
      obtain ⟨pp, hpp, hvp⟩ := hv
      right
      exact strictPart_inDomain lo hi pp
        (List.all_eq_true.mp hf pp hpp) v hvp

/-- C3 as stated is false: the expression `1-10/2 * * * *` uses the
`start-end/step` stride form the specification lists as valid syntax,
but `expand_field` recognizes only `*/step` strides, so the part
`1-10/2` is passed through verbatim and the compiler emits the
non-numeric value `1-10/2` inside an `<integer>` element — neither a
concrete integer nor within the minute domain. -/
theorem cron_value_leak_counterexample :
    wfField "1-10/2".data = true ∧
    cron_to_calendar_interval "1-10/2".data "*".data "*".data "*".data
        "*".data
      = [⟨some "1-10/2".data, none, none, none, none⟩] ∧
    "1-10/2".data.all Char.isDigit = false := by
  refine ⟨by decide, by decide, by decide⟩

theorem keyVal_some (m v : List Char) (h : keyVal m = some v) :
    v = m ∧ m ≠ ['*'] := by
  unfold keyVal at h
  split at h
  · exact absurd h (by simp)
  · exact ⟨(Option.some.inj h).symm, by assumption⟩

theorem mem_generate_dicts {A B C D E : List (List Char)} {d : TriggerDict}
    (h : d ∈ generate_dicts A B C D E) :
    ∃ m ∈ A, ∃ hh ∈ B, ∃ dd ∈ C, ∃ mo ∈ D, ∃ dw ∈ E,
      d = ⟨keyVal m, keyVal hh, keyVal dd, keyVal mo, keyVal dw⟩ := by
  simp only [generate_dicts, List.mem_flatMap, List.mem_map] at h
  obtain ⟨m, hm, hh, hhh, dd, hdd, mo, hmo, dw, hdw, heq⟩ := h
  exact ⟨m, hm, hh, hhh, dd, hdd, mo, hmo, dw, hdw, heq.symm⟩

/-- C3 (amended): for a 5-field expression whose fields stay within the
forms the code actually supports — `*`, in-domain literals, comma lists,
in-domain `start-end` ranges, and positive `*/step` strides on the
zero-based fields (minute, hour, day-of-week) only — every value the
compiler emits is a nonempty decimal numeral whose value lies within the
field's domain.  (As stated the claim is false: `start-end/step` strides
leak verbatim as non-numeric values, and `*/step` on day-of-month or
month emits the out-of-domain value 0, because those loops start at 0
while the domain starts at 1.) -/
theorem cron_values_in_domain (f1 f2 f3 f4 f5 : List Char)
    (h1 : strictField 0 59 true f1 = true)
    (h2 : strictField 0 23 true f2 = true)
    (h3 : strictField 1 31 false f3 = true)
    (h4 : strictField 1 12 false f4 = true)
    (h5 : strictField 0 6 true f5 = true) :
    ∀ d ∈ cron_to_calendar_interval f1 f2 f3 f4 f5,
      (∀ v, d.minute = some v → InDomainVal 0 59 v) ∧
      (∀ v, d.hour = some v → InDomainVal 0 23 v) ∧
      (∀ v, d.day = some v → InDomainVal 1 31 v) ∧
      (∀ v, d.month = some v → InDomainVal 1 12 v) ∧
      (∀ v, d.weekday = some v → InDomainVal 0 6 v) := by
  intro d hd
  rw [cron_to_calendar_interval] at hd
  obtain ⟨m, hm, hh, hhh, dd, hdd, mo, hmo, dw, hdw, heq⟩ :=
    mem_generate_dicts hd
  subst heq
  have hfalse : false = true → (1 : Nat) = 0 := by decide
  refine ⟨?_, ?_, ?_, ?_, ?_⟩
  · intro v hv
    obtain ⟨hveq, hne⟩ := keyVal_some m v hv
    rw [hveq]
    rcases expand_field_strict 0 59 true f1 (fun _ => rfl) h1 m hm with
      hstar | hdom
    · exact absurd hstar hne
    · exact hdom
  · intro v hv
    obtain ⟨hveq, hne⟩ := keyVal_some hh v hv
    rw [hveq]
    rcases expand_field_strict 0 23 true f2 (fun _ => rfl) h2 hh hhh with
      hstar | hdom
    · exact absurd hstar hne
    · exact hdom
  · intro v hv
    obtain ⟨hveq, hne⟩ := keyVal_some dd v hv
    rw [hveq]
    rcases expand_field_strict 1 31 false f3 hfalse h3 dd hdd with
      hstar | hdom
    · exact absurd hstar hne
    · exact hdom
  · intro v hv
    obtain ⟨hveq, hne⟩ := keyVal_some mo v hv
    rw [hveq]
    rcases expand_field_strict 1 12 false f4 hfalse h4 mo hmo with
      hstar | hdom
    · exact absurd hstar hne
    · exact hdom
  · intro v hv
    obtain ⟨hveq, hne⟩ := keyVal_some dw v hv
    rw [hveq]
    rcases expand_field_strict 0 6 true f5 (fun _ => rfl) h5 dw hdw with
      hstar | hdom
    · exact absurd hstar hne
    · exact hdom

theorem cron_values_in_domain_witness :
    strictField 0 59 true "5".data = true ∧
    InDomainVal 0 59 ['5'] :=
  ⟨by decide,
    (cron_values_in_domain "5".data "*".data "*".data "*".data "*".data
      (by decide) (by decide) (by decide) (by decide) (by decide)
      ⟨some ['5'], none, none, none, none⟩ (by decide)).1 ['5'] rfl⟩

/-! ## C2 — retry loop -/

theorem retryGo_spec (exits : Nat → Int) :
    ∀ fuel k, 1 ≤ fuel →
    (k + 1 ≤ (retryGo exits k fuel).attempts ∧
      (retryGo exits k fuel).attempts ≤ k + fuel) ∧
    (retryGo exits k fuel).exitCode = exits (retryGo exits k fuel).attempts ∧
    (∀ j, k + 1 ≤ j → j < (retryGo exits k fuel).attempts → exits j ≠ 0) ∧
    ((retryGo exits k fuel).exitCode ≠ 0 →
      (retryGo exits k fuel).attempts = k + fuel) ∧
    (retryGo exits k fuel).logChunks
      = List.range' (k + 1) ((retryGo exits k fuel).attempts - k) ∧
    (retryGo exits k fuel).backoffSecs
      = 5 * ((retryGo exits k fuel).attempts - (k + 1)) := by
  intro fuel
  induction fuel with
  | zero => omega
  | succ fuel ih =>
    intro k _
    by_cases he : exits (k + 1) = 0
    · have hres : retryGo exits k (fuel + 1) = ⟨k + 1, exits (k + 1), 0, [k + 1]⟩ := by
        simp [retryGo, he]
      rw [hres]
      dsimp only
      refine ⟨⟨by omega, by omega⟩, rfl, ?_, ?_, ?_, ?_⟩
      · intro j hj1 hj2
        omega
      · intro hne
        exact absurd he (by simpa using hne)
      · have : k + 1 - k = 1 := by omega
        rw [this]
        rfl
      · omega
    · by_cases hf : fuel = 0
      · subst hf
        have hres : retryGo exits k 1 = ⟨k + 1, exits (k + 1), 0, [k + 1]⟩ := by
          simp [retryGo, he]
        rw [hres]
        dsimp only
        refine ⟨⟨by omega, by omega⟩, rfl, ?_, ?_, ?_, ?_⟩
        · intro j hj1 hj2
          omega
        · intro _
          omega
        · have : k + 1 - k = 1 := by omega
          rw [this]
          rfl
        · omega
      · have hres : retryGo exits k (fuel + 1)
            = ⟨(retryGo exits (k + 1) fuel).attempts,
               (retryGo exits (k + 1) fuel).exitCode,
               (retryGo exits (k + 1) fuel).backoffSecs + 5,
               (k + 1) :: (retryGo exits (k + 1) fuel).logChunks⟩ := by
          simp [retryGo, he, hf]
        obtain ⟨⟨iha1, iha2⟩, ihe, ihj, ihne, ihlog, ihback⟩ :=
          ih (k + 1) (by omega)
        rw [hres]
        dsimp only
        refine ⟨⟨by omega, by omega⟩, ihe, ?_, ?_, ?_, ?_⟩
        · intro j hj1 hj2
          by_cases hjk : j = k + 1
          · subst hjk
            exact he
          · exact ihj j (by omega) hj2
        · intro hne
          have := ihne hne
          omega
        · rw [ihlog]
          have h1 : (retryGo exits (k + 1) fuel).attempts - k
              = ((retryGo exits (k + 1) fuel).attempts - (k + 1)) + 1 := by
            omega
          rw [h1]
          rfl
        · rw [ihback]
          omega

theorem replaceFirstById_length (l : List RunRecord) (e : RunRecord) :
    (replaceFirstById l e).length = l.length := by
  induction l with
  | nil => rfl
  | cons r rest ih =>
    simp only [replaceFirstById]
    split <;> simp [ih]

theorem mem_replaceFirstById (l : List RunRecord) (e : RunRecord)
    (h : l.any (·.runId = e.runId) = true) : e ∈ replaceFirstById l e := by
  induction l with
  | nil => simp at h
  | cons r rest ih =>
    simp only [replaceFirstById]
    split
    · exact List.mem_cons_self _ _
    · rename_i hne
      simp only [List.any_cons, Bool.or_eq_true, decide_eq_true_eq] at h
      rcases h with h | h
      · exact absurd h hne
      · exact List.mem_cons_of_mem r (ih (by simpa using h))

/-- C2: on a non-zero exit the runner re-attempts while the attempts
consumed are at most `retries` (sleeping 5 seconds before each retry),
stops at the first zero exit, and the `attempts` written into the final
record is exactly the number of executions that ran, at most
`retries + 1`; the final `exitCode` is the last execution's; the log
chunks of all attempts accumulate in order in the one log file; the
final state write replaces the same `running` RunRecord in place; and
with `retries = 1` and a command failing once then succeeding the final
result is `attempts = 2`, `exitCode = 0`. -/
theorem retry_policy :
    (∀ exits retries,
      1 ≤ (runner_retry_loop exits retries).attempts ∧
      (runner_retry_loop exits retries).attempts ≤ retries + 1 ∧
      (runner_retry_loop exits retries).exitCode
        = exits (runner_retry_loop exits retries).attempts ∧
      (∀ j, 1 ≤ j → j < (runner_retry_loop exits retries).attempts →
        exits j ≠ 0) ∧
      ((runner_retry_loop exits retries).exitCode ≠ 0 →
        (runner_retry_loop exits retries).attempts = retries + 1) ∧
      (runner_retry_loop exits retries).logChunks
        = List.range' 1 (runner_retry_loop exits retries).attempts ∧
      (runner_retry_loop exits retries).backoffSecs
        = 5 * ((runner_retry_loop exits retries).attempts - 1)) ∧
    (∀ runs entry, runs.any (·.runId = entry.runId) = true →
      runs.length ≤ 100 →
      final_update runs entry = replaceFirstById runs entry ∧
      (final_update runs entry).length = runs.length ∧
      entry ∈ final_update runs entry) ∧
    runner_retry_loop (fun j => if j = 1 then 1 else 0) 1
      = ⟨2, 0, 5, [1, 2]⟩ := by
  refine ⟨?_, ?_, by decide⟩
  · intro exits retries
    simp only [runner_retry_loop]
    obtain ⟨⟨h1, h2⟩, he, hj, hne, hlog, hback⟩ :=
      retryGo_spec exits (retries + 1) 0 (by omega)
    exact ⟨by omega, by omega, he, fun j hj1 hj2 => hj j (by omega) hj2,
      fun h => by have := hne h; omega, by simpa using hlog, hback⟩
  · intro runs entry hany hlen
    have heq : final_update runs entry = replaceFirstById runs entry := by
      unfold final_update
      rw [if_pos hany]
      rw [if_neg (by rw [replaceFirstById_length]; omega)]
    refine ⟨heq, ?_, ?_⟩
    · rw [heq, replaceFirstById_length]
    · rw [heq]
      exact mem_replaceFirstById runs entry hany

theorem retry_policy_witness :
    ([⟨"r1", "j", "s", none, none, none, some "running", "L"⟩] :
        List RunRecord).any
      (·.runId = (⟨"r1", "j", "s", some "e", some 0, some 2, none, "L"⟩ :
        RunRecord).runId) = true ∧
    ([⟨"r1", "j", "s", none, none, none, some "running", "L"⟩] :
        List RunRecord).length ≤ 100 ∧
    final_update [⟨"r1", "j", "s", none, none, none, some "running", "L"⟩]
        ⟨"r1", "j", "s", some "e", some 0, some 2, none, "L"⟩
      = [⟨"r1", "j", "s", some "e", some 0, some 2, none, "L"⟩] :=
  ⟨by decide, by decide, by
    have := (retry_policy.2.1
      [⟨"r1", "j", "s", none, none, none, some "running", "L"⟩]
      ⟨"r1", "j", "s", some "e", some 0, some 2, none, "L"⟩
      (by decide) (by decide)).1
    rw [this]
    decide⟩

/-! ## C4 — kill reconciliation -/

theorem updateRun_cons_ne (r : RunRecord) (rest : List RunRecord)
    (rid : String) (f : RunRecord → RunRecord) (h : ¬ r.runId = rid) :
    updateRun (r :: rest) rid f = r :: updateRun rest rid f := by
  simp [updateRun, h]

theorem foldl_updateRun_cons (f : RunRecord → RunRecord)
    (todo : List RunRecord) (x : RunRecord) :
    ∀ l : List RunRecord, (∀ t ∈ todo, ¬ t.runId = x.runId) →
    todo.foldl (fun acc r => updateRun acc r.runId f) (x :: l)
      = x :: todo.foldl (fun acc r => updateRun acc r.runId f) l := by
  induction todo with
  | nil =>
    intro l _
    rfl
  | cons t ts ih =>
    intro l h
    simp only [List.foldl_cons]
    rw [updateRun_cons_ne x l t.runId f
      (fun he => h t (by simp) he.symm)]
    exact ih _ (fun t' ht' => h t' (by simp [ht']))

theorem kill_fold (p : RunRecord → Bool) (f : RunRecord → RunRecord)
    (hf : ∀ r, (f r).runId = r.runId) :
    ∀ runs : List RunRecord, (runs.map (·.runId)).Nodup →
    (runs.filter p).foldl (fun acc r => updateRun acc r.runId f) runs
      = runs.map (fun r => if p r then f r else r) := by
  intro runs
  induction runs with
  | nil =>
    intro _
    rfl
  | cons r rest ih =>
    intro hnd
    simp only [List.map_cons, List.nodup_cons] at hnd
    obtain ⟨hnotin, hnd'⟩ := hnd
    have hne : ∀ t ∈ rest.filter p, ¬ t.runId = r.runId := by
      intro t ht he
      exact hnotin
        (he ▸ List.mem_map_of_mem _ (List.mem_of_mem_filter ht))
    by_cases hp : p r
    · rw [List.filter_cons_of_pos hp]
      simp only [List.foldl_cons]
      have h1 : updateRun (r :: rest) r.runId f = f r :: rest := by
        simp [updateRun]
      rw [h1,
        foldl_updateRun_cons f (rest.filter p) (f r) rest
          (by
            intro t ht
            rw [hf r]
            exact hne t ht),
        ih hnd']
      simp [hp]
    · rw [List.filter_cons_of_neg hp,
        foldl_updateRun_cons f (rest.filter p) r rest hne, ih hnd']
      simp [hp]

/-- C4 as stated is false at this input: with a lock and pid file present
(`pidFileExists = true`), a successful signal, and no `running` record
in the store, `killJob` still returns the error `No running process
found` — but the claim says an error is returned exactly when no running
record *and no lock* exist. -/
theorem killJob_error_despite_lock :
    (killJob "j" true .ok "T" []).error = some "No running process found" ∧
    (killJob "j" true .ok "T" []).killed = false ∧
    (killJob "j" true .ok "T" []).lockRemoved = true :=
  ⟨rfl, rfl, rfl⟩

/-- C4 (amended): when the termination signal does not fail with an
unexpected error, `killJob` errors exactly when no `running` record for
the job name exists (whether or not a lock existed — a cleaned-up lock
still yields the error); when such a record exists — even with the lock
stale or absent — every `running` record of the job is force-marked
`killed` with `exitCode 137`, all other records are untouched, and the
call reports success; lock artifacts are removed exactly when the pid
file existed. -/
theorem killJob_spec (jb now : String) (pid : Bool) (sig : KillSignalResult)
    (runs : List RunRecord)
    (hnd : (runs.map (·.runId)).Nodup)
    (hsig : pid = false ∨ sig = .ok ∨ sig = .esrch) :
    ((killJob jb pid sig now runs).error.isSome
      ↔ ∀ r ∈ runs, runningFor jb r = false) ∧
    ((∃ r ∈ runs, runningFor jb r = true) →
      (killJob jb pid sig now runs).killed = true ∧
      (killJob jb pid sig now runs).runs
        = runs.map
            (fun r => if runningFor jb r then markKilled now r else r)) ∧
    ((∀ r ∈ runs, runningFor jb r = false) →
      (killJob jb pid sig now runs).killed = false ∧
      (killJob jb pid sig now runs).runs = runs) ∧
    (killJob jb pid sig now runs).lockRemoved = pid := by
  have hkill : killJob jb pid sig now runs
      = (if (runs.filter (runningFor jb)).isEmpty then
          ⟨false, some "No running process found", runs, pid⟩
        else
          ⟨true, none,
            (runs.filter (runningFor jb)).foldl
              (fun acc r => updateRun acc r.runId (markKilled now)) runs,
            pid⟩) := by
    rcases hsig with h | h | h
    · subst h
      cases sig <;> rfl
    · subst h
      cases pid <;> rfl
    · subst h
      cases pid <;> rfl
  rw [hkill]
  by_cases hstale : (runs.filter (runningFor jb)).isEmpty
  · rw [if_pos hstale]
    have hall : ∀ r ∈ runs, runningFor jb r = false := by
      intro r hr
      have hnil : runs.filter (runningFor jb) = [] := by
        simpa [List.isEmpty_iff] using hstale
      have := List.filter_eq_nil_iff.mp hnil r hr
      simpa using this
    refine ⟨⟨fun _ => hall, fun _ => rfl⟩, ?_, fun _ => ⟨rfl, rfl⟩, rfl⟩
    intro hex
    obtain ⟨r, hr, ht⟩ := hex
    rw [hall r hr] at ht
    exact absurd ht (by simp)
  · rw [if_neg hstale]
    have hex : ∃ r ∈ runs, runningFor jb r = true := by
      have hne : runs.filter (runningFor jb) ≠ [] := by
        simpa [List.isEmpty_iff] using hstale
      obtain ⟨r, hr⟩ := List.exists_mem_of_ne_nil _ hne
      exact ⟨r, List.mem_of_mem_filter hr, List.of_mem_filter hr⟩
    refine ⟨?_, ?_, ?_, rfl⟩
    · constructor
      · intro h
        exact absurd h (by simp)
      · intro hall
        obtain ⟨r, hr, ht⟩ := hex
        rw [hall r hr] at ht
        exact absurd ht (by simp)
    · intro _
      exact ⟨rfl, kill_fold (runningFor jb) (markKilled now)
        (fun r => rfl) runs hnd⟩
    · intro hall
      obtain ⟨r, hr, ht⟩ := hex
      rw [hall r hr] at ht
      exact absurd ht (by simp)

theorem killJob_spec_witness :
    (([⟨"r1", "j", "s", none, none, none, some "running", "L"⟩] :
        List RunRecord).map (·.runId)).Nodup ∧
    (killJob "j" false .ok "T"
      [⟨"r1", "j", "s", none, none, none, some "running", "L"⟩]).killed
      = true :=
  ⟨by decide,
    ((killJob_spec "j" "T" false .ok
        [⟨"r1", "j", "s", none, none, none, some "running", "L"⟩]
        (by decide) (Or.inl rfl)).2.1
      ⟨⟨"r1", "j", "s", none, none, none, some "running", "L"⟩,
        by decide, by decide⟩).1⟩

/-! ## C5 — deletion operations -/

theorem cleanupLog_mono (fs delOk : String → Bool) (r : RunRecord)
    (p : String) (h : cleanupLog fs delOk r p = true) : fs p = true := by
  by_cases hl : (r.logFile ≠ "" && fs r.logFile) = true
  · rw [cleanupLog, if_pos hl] at h
    simp only [tryUnlink] at h
    split at h
    · exact absurd h (by simp)
    · exact h
  · rw [cleanupLog, if_neg hl] at h
    exact h

theorem cleanupLog_kills (fs delOk : String → Bool) (r : RunRecord)
    (hlog : r.logFile ≠ "") (hdel : delOk r.logFile = true) :
    cleanupLog fs delOk r r.logFile = false := by
  cases hfs : fs r.logFile
  · rw [cleanupLog, if_neg (by simp [hfs])]
    exact hfs
  · rw [cleanupLog, if_pos (by simp [hlog, hfs])]
    simp [tryUnlink, hdel]

theorem deleteRuns_keeps (ids : List String) :
    ∀ (runs : List RunRecord) (fs delOk : String → Bool),
    (deleteRuns runs fs delOk ids).2.1
      = runs.filter
          (fun r => !ids.contains r.runId || r.status = some "running") ∧
    (deleteRuns runs fs delOk ids).1
      = runs.length - (deleteRuns runs fs delOk ids).2.1.length := by
  intro runs
  induction runs with
  | nil =>
    intro fs d
    exact ⟨rfl, rfl⟩
  | cons r rest ih =>
    intro fs d
    have hkept := List.length_filter_le
      (fun r => !ids.contains r.runId || r.status = some "running") rest
    by_cases hc : (!ids.contains r.runId || r.status = some "running") = true
    · obtain ⟨ih1, ih2⟩ := ih fs d
      simp only [deleteRuns]
      rw [if_pos hc]
      dsimp only
      refine ⟨?_, ?_⟩
      · rw [List.filter_cons, if_pos hc, ih1]
      · rw [ih2, ih1]
        simp only [List.length_cons]
        omega
    · obtain ⟨ih1, ih2⟩ := ih (cleanupLog fs d r) d
      simp only [deleteRuns]
      rw [if_neg hc]
      dsimp only
      refine ⟨?_, ?_⟩
      · rw [List.filter_cons, if_neg hc, ih1]
      · rw [ih2, ih1]
        simp only [List.length_cons]
        omega

theorem clearRuns_keeps (filt : Option String) :
    ∀ (runs : List RunRecord) (fs delOk : String → Bool),
    (clearRuns runs fs delOk filt).2.1
      = runs.filter
          (fun r => clearFilterKeeps filt r || r.status = some "running") ∧
    (clearRuns runs fs delOk filt).1
      = runs.length - (clearRuns runs fs delOk filt).2.1.length := by
  intro runs
  induction runs with
  | nil =>
    intro fs d
    exact ⟨rfl, rfl⟩
  | cons r rest ih =>
    intro fs d
    have hkept := List.length_filter_le
      (fun r => clearFilterKeeps filt r || r.status = some "running") rest
    by_cases h1 : clearFilterKeeps filt r = true
    · obtain ⟨ih1, ih2⟩ := ih fs d
      simp only [clearRuns]
      rw [if_pos h1]
      dsimp only
      refine ⟨?_, ?_⟩
      · rw [List.filter_cons, if_pos (by simp [h1]), ih1]
      · rw [ih2, ih1]
        simp only [List.length_cons]
        omega
    · by_cases h2 : r.status = some "running"
      · obtain ⟨ih1, ih2⟩ := ih fs d
        simp only [clearRuns]
        rw [if_neg h1, if_pos h2]
        dsimp only
        refine ⟨?_, ?_⟩
        · rw [List.filter_cons, if_pos (by simp [h2]), ih1]
        · rw [ih2, ih1]
          simp only [List.length_cons]
          omega
      · obtain ⟨ih1, ih2⟩ := ih (cleanupLog fs d r) d
        simp only [clearRuns]
        rw [if_neg h1, if_neg h2]
        dsimp only
        refine ⟨?_, ?_⟩
        · rw [List.filter_cons, if_neg (by simp [h1, h2]), ih1]
        · rw [ih2, ih1]
          simp only [List.length_cons]
          omega

theorem deleteRuns_fs_mono (ids : List String) :
    ∀ (runs : List RunRecord) (fs delOk : String → Bool) (p : String),
    (deleteRuns runs fs delOk ids).2.2 p = true → fs p = true := by
  intro runs
  induction runs with
  | nil =>
    intro fs d p h
    exact h
  | cons r rest ih =>
    intro fs d p h
    by_cases hc : (!ids.contains r.runId || r.status = some "running") = true
    · simp only [deleteRuns] at h
      rw [if_pos hc] at h
      exact ih fs d p h
    · simp only [deleteRuns] at h
      rw [if_neg hc] at h
      exact cleanupLog_mono fs d r p (ih _ d p h)

theorem clearRuns_fs_mono (filt : Option String) :
    ∀ (runs : List RunRecord) (fs delOk : String → Bool) (p : String),
    (clearRuns runs fs delOk filt).2.2 p = true → fs p = true := by
  intro runs
  induction runs with
  | nil =>
    intro fs d p h
    exact h
  | cons r rest ih =>
    intro fs d p h
    simp only [clearRuns] at h
    by_cases h1 : clearFilterKeeps filt r = true
    · rw [if_pos h1] at h
      exact ih fs d p h
    · rw [if_neg h1] at h
      by_cases h2 : r.status = some "running"
      · rw [if_pos h2] at h
        exact ih fs d p h
      · rw [if_neg h2] at h
        exact cleanupLog_mono fs d r p (ih _ d p h)

theorem deleteRuns_removes_log (ids : List String) :
    ∀ (runs : List RunRecord) (fs delOk : String → Bool) (r : RunRecord),
    r ∈ runs → ids.contains r.runId = true →
    ¬ r.status = some "running" → r.logFile ≠ "" →
    delOk r.logFile = true →
    (deleteRuns runs fs delOk ids).2.2 r.logFile = false := by
  intro runs
  induction runs with
  | nil =>
    intro fs d r hmem
    exact absurd hmem (by simp)
  | cons r0 rest ih =>
    intro fs d r hmem hin hrun hlog hdel
    by_cases hc : (!ids.contains r0.runId || r0.status = some "running") = true
    · have hne : r ≠ r0 := by
        intro he
        subst he
        simp only [Bool.or_eq_true, Bool.not_eq_true', decide_eq_true_eq] at hc
        rcases hc with hc | hc
        · rw [hin] at hc
          exact absurd hc (by simp)
        · exact hrun hc
      have hmem' : r ∈ rest := by
        rcases List.mem_cons.mp hmem with he | hm
        · exact absurd he hne
        · exact hm
      simp only [deleteRuns]
      rw [if_pos hc]
      exact ih fs d r hmem' hin hrun hlog hdel
    · simp only [deleteRuns]
      rw [if_neg hc]
      rcases List.mem_cons.mp hmem with he | hm
      · subst he
        have hdead : cleanupLog fs d r r.logFile = false :=
          cleanupLog_kills fs d r hlog hdel
        cases hfin : (deleteRuns rest (cleanupLog fs d r) d ids).2.2 r.logFile
        · rfl
        · have := deleteRuns_fs_mono ids rest (cleanupLog fs d r) d
            r.logFile hfin
          rw [hdead] at this
          exact absurd this (by simp)
      · exact ih (cleanupLog fs d r0) d r hm hin hrun hlog hdel

theorem clearRuns_removes_log (filt : Option String) :
    ∀ (runs : List RunRecord) (fs delOk : String → Bool) (r : RunRecord),
    r ∈ runs → clearFilterKeeps filt r = false →
    ¬ r.status = some "running" → r.logFile ≠ "" →
    delOk r.logFile = true →
    (clearRuns runs fs delOk filt).2.2 r.logFile = false := by
  intro runs
  induction runs with
  | nil =>
    intro fs d r hmem
    exact absurd hmem (by simp)
  | cons r0 rest ih =>
    intro fs d r hmem hfilt hrun hlog hdel
    simp only [clearRuns]
    by_cases h1 : clearFilterKeeps filt r0 = true
    · have hne : r ≠ r0 := by
        intro he
        subst he
        rw [hfilt] at h1
        exact absurd h1 (by simp)
      have hmem' : r ∈ rest := by
        rcases List.mem_cons.mp hmem with he | hm
        · exact absurd he hne
        · exact hm
      rw [if_pos h1]
      exact ih fs d r hmem' hfilt hrun hlog hdel
    · by_cases h2 : r0.status = some "running"
      · have hne : r ≠ r0 := by
          intro he
          subst he
          exact hrun h2
        have hmem' : r ∈ rest := by
          rcases List.mem_cons.mp hmem with he | hm
          · exact absurd he hne
          · exact hm
        rw [if_neg h1, if_pos h2]
        exact ih fs d r hmem' hfilt hrun hlog hdel
      · rw [if_neg h1, if_neg h2]
        rcases List.mem_cons.mp hmem with he | hm
        · subst he
          have hdead : cleanupLog fs d r r.logFile = false :=
            cleanupLog_kills fs d r hlog hdel
          cases hfin : (clearRuns rest (cleanupLog fs d r) d filt).2.2 r.logFile
          · rfl
          · have := clearRuns_fs_mono filt rest (cleanupLog fs d r) d
              r.logFile hfin
            rw [hdead] at this
            exact absurd this (by simp)
        · exact ih (cleanupLog fs d r0) d r hm hfilt hrun hlog hdel

theorem deleteRun_indep :
    ∀ (runs : List RunRecord) (fs1 d1 fs2 d2 : String → Bool) (rid : String),
    (deleteRun runs fs1 d1 rid).1 = (deleteRun runs fs2 d2 rid).1 ∧
    (deleteRun runs fs1 d1 rid).2.1 = (deleteRun runs fs2 d2 rid).2.1 := by
  intro runs
  induction runs with
  | nil =>
    intro fs1 d1 fs2 d2 rid
    exact ⟨rfl, rfl⟩
  | cons r rest ih =>
    intro fs1 d1 fs2 d2 rid
    by_cases hr : r.runId = rid
    · constructor <;> simp [deleteRun, hr]
    · obtain ⟨ih1, ih2⟩ := ih fs1 d1 fs2 d2 rid
      constructor <;> simp [deleteRun, hr, ih1, ih2]

theorem deleteRun_removes_log :
    ∀ (runs : List RunRecord) (fs delOk : String → Bool) (rid : String)
      (run : RunRecord),
    runs.find? (·.runId = rid) = some run →
    run.logFile ≠ "" → delOk run.logFile = true →
    (deleteRun runs fs delOk rid).2.2 run.logFile = false := by
  intro runs
  induction runs with
  | nil =>
    intro fs d rid run hfind
    simp at hfind
  | cons r rest ih =>
    intro fs d rid run hfind hlog hdel
    by_cases hr : r.runId = rid
    · rw [List.find?_cons_of_pos _ (by simpa using hr)] at hfind
      have he : r = run := by simpa using hfind
      subst he
      simp only [deleteRun]
      rw [if_pos hr]
      exact cleanupLog_kills fs d r hlog hdel
    · rw [List.find?_cons_of_neg _ (by simpa using hr)] at hfind
      simp only [deleteRun]
      rw [if_neg hr]
      exact ih fs d rid run hfind hlog hdel

/-- C5 as stated is false at this input: the store-level `deleteRun`
(delete-by-id) has no `running` check, so called on a store holding one
`running` record with the matching id it deletes that record and reports
success.  (The `running` protection for single deletion lives only in
the `DELETE /api/runs/:runId` route handler, which rejects with an
error — it does not silently skip.) -/
theorem deleteRun_removes_running_counterexample :
    (deleteRun [⟨"r1", "j", "s", none, none, none, some "running", "/l1"⟩]
      (fun _ => false) (fun _ => true) "r1").1 = true ∧
    (deleteRun [⟨"r1", "j", "s", none, none, none, some "running", "/l1"⟩]
      (fun _ => false) (fun _ => true) "r1").2.1 = [] :=
  ⟨rfl, rfl⟩

/-- C5 (amended): batch-delete and filtered-clear silently keep every
`running` record (and every record the id set or status filter does not
select), deleting exactly the rest; the delete-by-id *route* rejects a
`running` record with an error and leaves the store untouched, while the
store-level `deleteRun` deletes the first id match regardless of status;
for every record an operation removes, the record's nonempty log file is
gone from the filesystem afterwards whenever its unlink succeeds, and
the record-level outcome of delete-by-id never depends on the
filesystem or on whether log unlinks succeed. -/
theorem deletion_spec :
    (∀ (runs : List RunRecord) (fs delOk : String → Bool)
        (ids : List String),
      (deleteRuns runs fs delOk ids).2.1
        = runs.filter
            (fun r => !ids.contains r.runId || r.status = some "running") ∧
      (deleteRuns runs fs delOk ids).1
        = runs.length - (deleteRuns runs fs delOk ids).2.1.length) ∧
    (∀ (runs : List RunRecord) (fs delOk : String → Bool)
        (filt : Option String),
      (clearRuns runs fs delOk filt).2.1
        = runs.filter
            (fun r => clearFilterKeeps filt r || r.status = some "running") ∧
      (clearRuns runs fs delOk filt).1
        = runs.length - (clearRuns runs fs delOk filt).2.1.length) ∧
    (∀ (runs : List RunRecord) (fs delOk : String → Bool) (rid : String)
        (run : RunRecord),
      runs.find? (·.runId = rid) = some run →
      run.status = some "running" →
      deleteRunRoute runs fs delOk rid = (.runningConflict, runs, fs)) ∧
    (∀ (runs : List RunRecord) (fs1 d1 fs2 d2 : String → Bool)
        (rid : String),
      (deleteRun runs fs1 d1 rid).1 = (deleteRun runs fs2 d2 rid).1 ∧
      (deleteRun runs fs1 d1 rid).2.1 = (deleteRun runs fs2 d2 rid).2.1) ∧
    (∀ (runs : List RunRecord) (fs delOk : String → Bool) (ids : List String)
        (r : RunRecord),
      r ∈ runs → ids.contains r.runId = true →
      ¬ r.status = some "running" → r.logFile ≠ "" →
      delOk r.logFile = true →
      (deleteRuns runs fs delOk ids).2.2 r.logFile = false) ∧
    (∀ (runs : List RunRecord) (fs delOk : String → Bool)
        (filt : Option String) (r : RunRecord),
      r ∈ runs → clearFilterKeeps filt r = false →
      ¬ r.status = some "running" → r.logFile ≠ "" →
      delOk r.logFile = true →
      (clearRuns runs fs delOk filt).2.2 r.logFile = false) ∧
    (∀ (runs : List RunRecord) (fs delOk : String → Bool) (rid : String)
        (run : RunRecord),
      runs.find? (·.runId = rid) = some run →
      run.logFile ≠ "" → delOk run.logFile = true →
      (deleteRun runs fs delOk rid).2.2 run.logFile = false) := by
  refine ⟨?_, ?_, ?_, ?_, ?_, ?_, ?_⟩
  · intro runs fs delOk ids
    exact deleteRuns_keeps ids runs fs delOk
  · intro runs fs delOk filt
    exact clearRuns_keeps filt runs fs delOk
  · intro runs fs delOk rid run hfind hrun
    simp only [deleteRunRoute]
    rw [hfind]
    simp [hrun]
  · intro runs fs1 d1 fs2 d2 rid
    exact deleteRun_indep runs fs1 d1 fs2 d2 rid
  · intro runs fs delOk ids r h1 h2 h3 h4 h5
    exact deleteRuns_removes_log ids runs fs delOk r h1 h2 h3 h4 h5
  · intro runs fs delOk filt r h1 h2 h3 h4 h5
    exact clearRuns_removes_log filt runs fs delOk r h1 h2 h3 h4 h5
  · intro runs fs delOk rid run h1 h2 h3
    exact deleteRun_removes_log runs fs delOk rid run h1 h2 h3

theorem deletion_spec_witness :
    ([⟨"r1", "j", "s", none, none, none, some "running", "/l1"⟩] :
        List RunRecord).find? (·.runId = "r1")
      = some ⟨"r1", "j", "s", none, none, none, some "running", "/l1"⟩ ∧
    deleteRunRoute
        [⟨"r1", "j", "s", none, none, none, some "running", "/l1"⟩]
        (fun _ => true) (fun _ => true) "r1"
      = (.runningConflict,
          [⟨"r1", "j", "s", none, none, none, some "running", "/l1"⟩],
          fun _ => true) :=
  ⟨by decide,
    deletion_spec.2.2.1
      [⟨"r1", "j", "s", none, none, none, some "running", "/l1"⟩]
      (fun _ => true) (fun _ => true) "r1"
      ⟨"r1", "j", "s", none, none, none, some "running", "/l1"⟩
      (by decide) (by decide)⟩

/-! ## C7 — disabled jobs and trigger paths -/

/-- C7 as stated is false at this input: for the job `j` stored with
`enabled: false`, a manual trigger (the API's `spawnJob(jobName, false)`
spawning `runner.sh j`) runs into the runner's enabled check and exits
before taking the lock or executing anything — the outcome is the
paused no-op, not an execution, although the claim says manual triggers
execute regardless of `enabled`. -/
theorem manual_trigger_disabled_noop_counterexample :
    runner_invoke
        (fun n => if n = "j" then some ⟨"p", none, some false⟩ else none)
        (fun _ => false) (.named "j")
      = .pausedExit ∧
    RunnerOutcome.pausedExit ≠ .executed "j" :=
  ⟨rfl, by decide⟩

/-- C7 (amended): a job stored with `enabled: false` is a no-op for
*both* trigger paths of a named job — `setup.sh` installs no calendar
trigger for it, and any `runner.sh <name>` invocation (scheduled or via
the manual trigger endpoint) exits at the enabled safety-net check
before acquiring the lock or executing; only the inline ad-hoc
(`--prompt`) path never consults `enabled`. -/
theorem disabled_job_noop (jobs : String → Option JobDef)
    (lockHeld : String → Bool) (name : String) (d : JobDef)
    (hres : jobs name = some d) (hdis : d.enabled = some false) :
    runner_invoke jobs lockHeld (.named name) = .pausedExit ∧
    scheduleInstalled d = false ∧
    (∀ p, runner_invoke jobs lockHeld (.inline p) ≠ .pausedExit) := by
  refine ⟨?_, ?_, ?_⟩
  · simp only [runner_invoke, hres]
    rw [if_pos hdis]
  · simp only [scheduleInstalled, hdis]
    simp
  · intro p
    simp only [runner_invoke]
    split <;> simp

theorem disabled_job_noop_witness :
    ((fun n => if n = "j" then some (⟨"p", none, some false⟩ : JobDef)
        else none) "j") = some ⟨"p", none, some false⟩ ∧
    scheduleInstalled ⟨"p", none, some false⟩ = false :=
  ⟨by decide,
    (disabled_job_noop
      (fun n => if n = "j" then some ⟨"p", none, some false⟩ else none)
      (fun _ => false) "j" ⟨"p", none, some false⟩ (by decide) rfl).2.1⟩

/-! ## C8 — bearer-token authentication -/

/-- C8 as stated is false at this input: with enforcement on
(`AUTH_TOKEN = "s3cret"`), a request to the liveness probe
`GET /api/health` carrying no credential is rejected 401, because the
`app.use("/api/*")` middleware also matches the health route — the
probe is *not* exempt. -/
theorem health_requires_auth_counterexample :
    serveApi "s3cret" "/api/health" none none = .unauthorized ∧
    isApiPath "/api/health" = true :=
  ⟨by decide, by decide⟩

/-- C8 (amended): with the secret absent (`""`) or set to the
placeholder `changeme`, enforcement is disabled and every request is
handled; with enforcement on, a request to any `/api/...` path —
including the liveness probe `/api/health` — is handled iff it carries
the matching bearer header or query token, and is rejected 401
otherwise; paths outside `/api/` are never touched by the middleware. -/
theorem api_auth_enforcement (token path : String)
    (hdr qry : Option String) :
    (authBypass token = true → serveApi token path hdr qry = .handled) ∧
    (authBypass token = false → isApiPath path = true →
      (serveApi token path hdr qry = .handled
        ↔ credentialOk token hdr qry = true)) ∧
    (isApiPath path = false → serveApi token path hdr qry = .handled) ∧
    isApiPath "/api/health" = true := by
  refine ⟨?_, ?_, ?_, by decide⟩
  · intro hb
    simp [serveApi, hb]
  · intro hb hapi
    constructor
    · intro h
      by_cases hcred : credentialOk token hdr qry = true
      · exact hcred
      · exfalso
        rw [serveApi, if_pos (by simp [hapi, hb, hcred])] at h
        exact absurd h (by simp)
    · intro hcred
      rw [serveApi, if_neg (by simp [hcred])]
  · intro hapi
    rw [serveApi, if_neg (by simp [hapi])]

theorem api_auth_enforcement_witness :
    authBypass "s3cret" = false ∧
    isApiPath "/api/runs" = true ∧
    (serveApi "s3cret" "/api/runs" (some "Bearer s3cret") none = .handled
      ↔ credentialOk "s3cret" (some "Bearer s3cret") none = true) :=
  ⟨by decide, by decide,
    (api_auth_enforcement "s3cret" "/api/runs" (some "Bearer s3cret")
      none).2.1 (by decide) (by decide)⟩

/-! ## C10 — the two run-id formats never coincide -/

theorem isDigit_not_sep (c : Char) (h : c.isDigit = true) :
    (!(c = '-' || c = ':' || c = 'T')) = true := by
  have h1 : c ≠ '-' := by
    intro he
    rw [he] at h
    exact absurd h (by decide)
  have h2 : c ≠ ':' := by
    intro he
    rw [he] at h
    exact absurd h (by decide)
  have h3 : c ≠ 'T' := by
    intro he
    rw [he] at h
    exact absurd h (by decide)
  simp [h1, h2, h3]

theorem filter_sep_of_all_digit (l : List Char)
    (h : l.all Char.isDigit = true) :
    l.filter (fun c => !(c = '-' || c = ':' || c = 'T')) = l := by
  apply List.filter_eq_self.mpr
  intro c hc
  exact isDigit_not_sep c (List.all_eq_true.mp h c hc)

theorem padTo_length_of_le (w n b : Nat) (hb : n ≤ b) (hpow : b < 10 ^ w)
    (hw : 1 ≤ w) : (padTo w n).length = w :=
  padTo_length _ _ (natToChars_length_le n w hw (lt_of_le_of_lt hb hpow))

theorem take_prefix_of_length (A B : List Char) (n : Nat)
    (h : A.length ≤ n) : (A ++ B).take n = A ++ B.take (n - A.length) := by
  rw [List.take_append_eq_append_take, List.take_of_length_le h]

theorem padTo_head_digit (w n : Nat) :
    ∃ c cs, padTo w n = c :: cs ∧ c.isDigit = true := by
  cases hp : padTo w n with
  | nil => exact absurd hp (padTo_ne_nil w n)
  | cons c cs =>
    refine ⟨c, cs, rfl, ?_⟩
    have hall := padTo_all_digit w n
    rw [hp] at hall
    simp only [List.all_cons, Bool.and_eq_true] at hall
    exact hall.1

theorem serverStamp_eq (t : Timestamp)
    (hy : t.year ≤ 9999) (hmo : t.month ≤ 99) (hd : t.day ≤ 99)
    (hh : t.hour ≤ 99) (hmi : t.minute ≤ 99) (hs2 : t.second ≤ 99) :
    serverStamp t
      = padTo 4 t.year ++ padTo 2 t.month ++ padTo 2 t.day ++
        padTo 2 t.hour ++ padTo 2 t.minute ++ padTo 2 t.second ++ ['.'] := by
  have l4 : (padTo 4 t.year).length = 4 :=
    padTo_length_of_le 4 t.year 9999 hy (by norm_num) (by norm_num)
  have lmo : (padTo 2 t.month).length = 2 :=
    padTo_length_of_le 2 t.month 99 hmo (by norm_num) (by norm_num)
  have ld : (padTo 2 t.day).length = 2 :=
    padTo_length_of_le 2 t.day 99 hd (by norm_num) (by norm_num)
  have lh : (padTo 2 t.hour).length = 2 :=
    padTo_length_of_le 2 t.hour 99 hh (by norm_num) (by norm_num)
  have lmi : (padTo 2 t.minute).length = 2 :=
    padTo_length_of_le 2 t.minute 99 hmi (by norm_num) (by norm_num)
  have ls : (padTo 2 t.second).length = 2 :=
    padTo_length_of_le 2 t.second 99 hs2 (by norm_num) (by norm_num)
  unfold serverStamp isoChars
  simp only [List.filter_append,
    filter_sep_of_all_digit _ (padTo_all_digit _ _)]
  have hsep1 : (['-'] : List Char).filter
      (fun c => !(c = '-' || c = ':' || c = 'T')) = [] := rfl
  have hsep2 : ([':'] : List Char).filter
      (fun c => !(c = '-' || c = ':' || c = 'T')) = [] := rfl
  have hsep3 : (['T'] : List Char).filter
      (fun c => !(c = '-' || c = ':' || c = 'T')) = [] := rfl
  have hdot : (['.'] : List Char).filter
      (fun c => !(c = '-' || c = ':' || c = 'T')) = ['.'] := rfl
  have hz : (['Z'] : List Char).filter
      (fun c => !(c = '-' || c = ':' || c = 'T')) = ['Z'] := rfl
  rw [hsep1, hsep2, hsep3, hdot, hz]
  simp only [List.append_nil, List.nil_append, List.append_assoc]
  rw [take_prefix_of_length _ _ 15 (by omega), l4]
  rw [take_prefix_of_length _ _ (15 - 4) (by omega), lmo]
  rw [take_prefix_of_length _ _ (15 - 4 - 2) (by omega), ld]
  rw [take_prefix_of_length _ _ (15 - 4 - 2 - 2) (by omega), lh]
  rw [take_prefix_of_length _ _ (15 - 4 - 2 - 2 - 2) (by omega), lmi]
  rw [take_prefix_of_length _ _ (15 - 4 - 2 - 2 - 2 - 2) (by omega), ls]
  rw [take_prefix_of_length _ _ (15 - 4 - 2 - 2 - 2 - 2 - 2)
    (by simp), List.length_singleton]
  norm_num

/-- C10: the runId `spawnJob` returns
(`name-YYYYMMDDhhmmss.`, an ISO stamp with `-`/`:`/`T` stripped and cut
to 15 characters, ending in a period) and the `RUN_ID` the runner script
stores (`name-YYYYMMDD-hhmmss`, with a hyphen between date and time)
differ for every pair of start instants — at offset 8 of the stamp the
server format always has a digit where the runner format has `-` — so
the runId the trigger/adhoc endpoints return never equals the runId in
the run state store. -/
theorem runId_formats_never_equal (name : String) (t1 t2 : Timestamp)
    (hy1 : t1.year ≤ 9999) (hmo1 : t1.month ≤ 99) (hd1 : t1.day ≤ 99)
    (hh1 : t1.hour ≤ 99) (hmi1 : t1.minute ≤ 99) (hs1 : t1.second ≤ 99)
    (hy2 : t2.year ≤ 9999) (hmo2 : t2.month ≤ 99) (hd2 : t2.day ≤ 99) :
    serverStamp t1
      = padTo 4 t1.year ++ padTo 2 t1.month ++ padTo 2 t1.day ++
        padTo 2 t1.hour ++ padTo 2 t1.minute ++ padTo 2 t1.second ++
        ['.'] ∧
    spawnJob_runId name t1 ≠ runner_RUN_ID name t2 := by
  refine ⟨serverStamp_eq t1 hy1 hmo1 hd1 hh1 hmi1 hs1, ?_⟩
  intro heq
  unfold spawnJob_runId runner_RUN_ID at heq
  rw [List.append_assoc, List.append_assoc] at heq
  have hstamps := List.append_cancel_left heq
  have hstamps2 := List.append_cancel_left hstamps
  rw [serverStamp_eq t1 hy1 hmo1 hd1 hh1 hmi1 hs1] at hstamps2
  unfold runnerStamp at hstamps2
  simp only [List.append_assoc] at hstamps2
  have p1 := List.append_inj hstamps2 (by
    rw [padTo_length_of_le 4 t1.year 9999 hy1 (by norm_num) (by norm_num),
      padTo_length_of_le 4 t2.year 9999 hy2 (by norm_num) (by norm_num)])
  have p2 := List.append_inj p1.2 (by
    rw [padTo_length_of_le 2 t1.month 99 hmo1 (by norm_num) (by norm_num),
      padTo_length_of_le 2 t2.month 99 hmo2 (by norm_num) (by norm_num)])
  have p3 := List.append_inj p2.2 (by
    rw [padTo_length_of_le 2 t1.day 99 hd1 (by norm_num) (by norm_num),
      padTo_length_of_le 2 t2.day 99 hd2 (by norm_num) (by norm_num)])
  have hrest := p3.2
  obtain ⟨c, cs, hp, hdig⟩ := padTo_head_digit 2 t1.hour
  rw [hp] at hrest
  simp only [List.cons_append, List.singleton_append] at hrest
  have hc := (List.cons.inj hrest).1
  rw [hc] at hdig
  exact absurd hdig (by decide)

theorem runId_formats_never_equal_witness :
    (⟨2026, 10, 12, 1, 23, 45, 678⟩ : Timestamp).year ≤ 9999 ∧
    spawnJob_runId "my-job" ⟨2026, 10, 12, 1, 23, 45, 678⟩
      ≠ runner_RUN_ID "my-job" ⟨2026, 10, 12, 1, 23, 45, 678⟩ :=
  ⟨by decide,
    (runId_formats_never_equal "my-job" ⟨2026, 10, 12, 1, 23, 45, 678⟩
      ⟨2026, 10, 12, 1, 23, 45, 678⟩ (by decide) (by decide) (by decide)
      (by decide) (by decide) (by decide) (by decide) (by decide)
      (by decide)).2⟩

end ClaudeRunner
